import Mathlib

/-!
Shallow embedding of the delta-prediction image codec in `src/main.py`:
the bit-packing class `BitArray` (add_bits / to_bytes / read_bits), the
per-channel delta coding loops, and the frame encoder/decoder
`encode_image` / `decode_image`, together with proofs of the
properties stated by the specification. Machine integers are modelled as `Nat`/`Int`
(Python integers are unbounded); the only runtime error reachable in this
code is the `ZeroDivisionError` raised by the progress computation, so
fallible functions return `Except PyError`.
-/

set_option maxHeartbeats 1000000

/-- Runtime errors the Python code can raise: `encoding_index % step_size`
raises `ZeroDivisionError` when `step_size` is zero. -/
inductive PyError where
  | zeroDivisionError
deriving DecidableEq

/-- Pixel = tuple[int, int, int]; channel values of images are 8-bit. -/
abbrev Pixel := Nat × Nat × Nat

abbrev PixelList := List Pixel

/-- Loop body of `encode_bits`: append `bool(value & 1)`, shift right, repeat. -/
def encAux : Nat → Nat → List Bool
  | _, 0 => []
  | value, length + 1 => (value &&& 1 == 1) :: encAux (value >>> 1) length

/-- encode_bits: the given value in the given length, most significant bit first. -/
def encode_bits (value length : Nat) : List Bool :=
  (encAux value length).reverse

/-- State of the `BitArray` class: emitted bytes, the 8-slot bit buffer, and
the buffer fill index. -/
structure BitArray where
  data : List Nat
  buffer : List Bool
  index : Nat
deriving DecidableEq

/-- Constructor `BitArray(data)`: buffer of eight `False`, index 0. -/
def BitArray.init (data : List Nat) : BitArray :=
  ⟨data, List.replicate 8 false, 0⟩

/-- Constructor `BitArray()` with the default empty byte buffer. -/
def BitArray.empty : BitArray :=
  BitArray.init []

/-- Byte packed from the 8-slot buffer, as written inline in both
`add_bits` and `to_bytes`: buffer[0] << 7 | buffer[1] << 6 | ... | buffer[7]. -/
def bufferByte (buffer : List Bool) : Nat :=
  (buffer.getD 0 false).toNat <<< 7 |||
  (buffer.getD 1 false).toNat <<< 6 |||
  (buffer.getD 2 false).toNat <<< 5 |||
  (buffer.getD 3 false).toNat <<< 4 |||
  (buffer.getD 4 false).toNat <<< 3 |||
  (buffer.getD 5 false).toNat <<< 2 |||
  (buffer.getD 6 false).toNat <<< 1 |||
  (buffer.getD 7 false).toNat

/-- Body of the `for bit in bits` loop of `add_bits`: store the bit, advance
the index, and flush the packed byte once eight bits have accumulated. -/
def BitArray.add_bit (b : BitArray) (bit : Bool) : BitArray :=
  let buf := b.buffer.set b.index bit
  if b.index + 1 = 8 then
    { data := b.data ++ [bufferByte buf], buffer := List.replicate 8 false, index := 0 }
  else
    { data := b.data, buffer := buf, index := b.index + 1 }

/-- add_bits: adds bits to the buffer; full buffers are written to the data. -/
def BitArray.add_bits (b : BitArray) (bits : List Bool) : BitArray :=
  bits.foldl BitArray.add_bit b

/-- to_bytes: writes the remaining partial buffer (zero-padded low bits) to
the data and returns the data. -/
def BitArray.to_bytes (b : BitArray) : List Nat :=
  if b.index > 0 then b.data ++ [bufferByte b.buffer] else b.data

/-- Value of a byte list as int.from_bytes with big-endian byte order. -/
def from_bytes (l : List Nat) : Nat :=
  l.foldl (fun acc byte => acc * 256 + byte) 0

/-- read_bits: reads `length` bits of the data starting at bit index `index`.
The Python slice `data[start_index:end_index]` silently truncates at the end
of the buffer, and `(8 - (index + length)) % 8` is the nonnegative Python
modulo, modelled on `Int`. -/
def BitArray.read_bits (b : BitArray) (index length : Nat) : Nat :=
  let mask := (1 <<< length) - 1
  let start_index := index / 8
  let end_index := (index + length + 7) / 8
  let shift := ((8 - (index + length : Int)) % 8).toNat
  let value := from_bytes ((b.data.drop start_index).take (end_index - start_index))
  (value >>> shift) &&& mask

def BITS_FOR_DIFF : Nat := 4

def DIFF_VAL : Nat := BITS_FOR_DIFF - 1

def DIFF_MOD : Nat := 1 <<< DIFF_VAL

def MAX_DIFF : Int := (DIFF_MOD : Int) - 1

def MIN_DIFF : Int := -(DIFF_MOD : Int)

/-- Inner loop of `encode_image` over one channel: `current_value` is the
running predictor, `eidx` the global `encoding_index`. After every sample the
source evaluates `encoding_index % step_size`, which raises
`ZeroDivisionError` when `step_size` is zero. -/
def encChan (step_size : Nat) : List Nat → Nat → BitArray → Nat → Except PyError (BitArray × Nat)
  | [], _, ba, eidx => .ok (ba, eidx)
  | val :: rest, current_value, ba, eidx =>
    let delta : Int := (val : Int) - (current_value : Int)
    let ba :=
      if delta < MIN_DIFF ∨ delta > MAX_DIFF then
        (ba.add_bits [false]).add_bits (encode_bits val 8)
      else
        ((ba.add_bits [true]).add_bits [decide (delta < 0)]).add_bits
          (encode_bits (delta % (DIFF_MOD : Int)).toNat DIFF_VAL)
    if step_size = 0 then .error PyError.zeroDivisionError
    else encChan step_size rest val ba (eidx + 1)

/-- encode_image: 16-bit width and height header, then the three channels
delta-coded in red, green, blue order. -/
def encode_image (width height : Nat) (pixels : PixelList) : Except PyError (List Nat) :=
  let encoded_bits := BitArray.empty
  let encoded_bits := encoded_bits.add_bits (encode_bits width 16)
  let encoded_bits := encoded_bits.add_bits (encode_bits height 16)
  let red := pixels.map (fun p => p.1)
  let green := pixels.map (fun p => p.2.1)
  let blue := pixels.map (fun p => p.2.2)
  let total_encoding := 3 * width * height
  let step_size := total_encoding / 100
  match encChan step_size red 0 encoded_bits 0 with
  | .error e => .error e
  | .ok (ba1, ei1) =>
    match encChan step_size green 0 ba1 ei1 with
    | .error e => .error e
    | .ok (ba2, ei2) =>
      match encChan step_size blue 0 ba2 ei2 with
      | .error e => .error e
      | .ok (ba3, _) => .ok ba3.to_bytes

/-- Inner loop of `decode_image` over one channel: `count` samples remain,
`index` is the running bit cursor (the closure-captured variable of
`get_next_bits`), `value` the running predictor as a Python int, and `didx`
the global `decoding_index`. After every sample the source evaluates
`decoding_index % step_size`, which raises `ZeroDivisionError` when
`step_size` is zero. -/
def decChan (bits : BitArray) (step_size : Nat) : Nat → Nat → Int → Nat → Except PyError (List Int × Nat × Nat)
  | 0, index, _, didx => .ok ([], index, didx)
  | count + 1, index, value, didx =>
    if bits.read_bits index 1 ≠ 0 then
      let negative := bits.read_bits (index + 1) 1 ≠ 0
      let difference0 := bits.read_bits (index + 1 + 1) DIFF_VAL
      let difference : Int :=
        if negative then (difference0 : Int) - (DIFF_MOD : Int) else (difference0 : Int)
      let value := value + difference
      let index := index + 1 + 1 + DIFF_VAL
      if step_size = 0 then .error PyError.zeroDivisionError
      else
        match decChan bits step_size count index value (didx + 1) with
        | .error e => .error e
        | .ok (rest, index1, didx1) => .ok (value :: rest, index1, didx1)
    else
      let value : Int := (bits.read_bits (index + 1) 8 : Nat)
      let index := index + 1 + 8
      if step_size = 0 then .error PyError.zeroDivisionError
      else
        match decChan bits step_size count index value (didx + 1) with
        | .error e => .error e
        | .ok (rest, index1, didx1) => .ok (value :: rest, index1, didx1)

/-- decode_image: reads the 32-bit header, then `width * height` samples per
channel in red, green, blue order with a running bit cursor starting at 32,
and zips the channels back into pixels. -/
def decode_image (data : List Nat) : Except PyError (Nat × Nat × List (Int × Int × Int)) :=
  let bits := BitArray.init data
  let width := bits.read_bits 0 16
  let height := bits.read_bits 16 16
  let pixel_count := width * height
  let total_decoding := 3 * width * height
  let step_size := total_decoding / 100
  match decChan bits step_size pixel_count 32 0 0 with
  | .error e => .error e
  | .ok (red, i1, d1) =>
    match decChan bits step_size pixel_count i1 0 d1 with
    | .error e => .error e
    | .ok (green, i2, d2) =>
      match decChan bits step_size pixel_count i2 0 d2 with
      | .error e => .error e
      | .ok (blue, _, _) => .ok (width, height, red.zip (green.zip blue))

/-- Value of a bit list read most-significant-bit first: the abstract meaning
of a packed bit stream. -/
def bitsVal (bits : List Bool) : Nat :=
  bits.foldl (fun acc bit => 2 * acc + bit.toNat) 0

/-- Bit expansion of a byte list, eight MSB-first bits per byte: the dense
bit sequence a byte buffer denotes. -/
def bytesToBits : List Nat → List Bool
  | [] => []
  | byte :: rest => encode_bits byte 8 ++ bytesToBits rest

/-- Bits emitted by the body of the encoder loop for one sample: a literal
code when the delta does not fit in [-8, 7], a delta code otherwise. -/
def encBitsSample (current_value val : Nat) : List Bool :=
  let delta : Int := (val : Int) - (current_value : Int)
  if delta < MIN_DIFF ∨ delta > MAX_DIFF then
    false :: encode_bits val 8
  else
    true :: decide (delta < 0) :: encode_bits (delta % (DIFF_MOD : Int)).toNat DIFF_VAL

/-- Bits emitted by the encoder for a whole channel, predictor threaded. -/
def encBitsChan (current_value : Nat) : List Nat → List Bool
  | [] => []
  | val :: rest => encBitsSample current_value val ++ encBitsChan val rest

/-- Well-formedness of a reachable `BitArray` writer state: the buffer has
its eight slots, the fill index is below 8, slots at or above the index are
still `False`, and every emitted byte fits in one byte. -/
def BitArray.wf (b : BitArray) : Prop :=
  b.buffer.length = 8 ∧ b.index < 8 ∧
    (∀ i, b.index ≤ i → b.buffer.getD i false = false) ∧ ∀ x ∈ b.data, x < 256

/-- Complete bit stream held by a writer: emitted bytes then the pending bits. -/
def bitsOf (b : BitArray) : List Bool :=
  bytesToBits b.data ++ b.buffer.take b.index

lemma bitsVal_nil : bitsVal [] = 0 := rfl

lemma bitsVal_foldl (acc : Nat) (l : List Bool) :
    l.foldl (fun a bit => 2 * a + bit.toNat) acc = acc * 2 ^ l.length + bitsVal l := by
  induction l generalizing acc with
  | nil => simp [bitsVal]
  | cons b t ih =>
    simp only [List.foldl_cons, List.length_cons, bitsVal]
    rw [ih (2 * acc + b.toNat), ih (2 * 0 + b.toNat)]
    ring

lemma bitsVal_cons (b : Bool) (t : List Bool) :
    bitsVal (b :: t) = b.toNat * 2 ^ t.length + bitsVal t := by
  have h : bitsVal (b :: t) = t.foldl (fun a bit => 2 * a + bit.toNat) (2 * 0 + b.toNat) := rfl
  rw [h, bitsVal_foldl]
  ring_nf

lemma bitsVal_append (xs ys : List Bool) :
    bitsVal (xs ++ ys) = bitsVal xs * 2 ^ ys.length + bitsVal ys := by
  simp only [bitsVal, List.foldl_append]
  rw [bitsVal_foldl]
  rfl

lemma bitsVal_lt (l : List Bool) : bitsVal l < 2 ^ l.length := by
  induction l with
  | nil => simp [bitsVal]
  | cons b t ih =>
    rw [bitsVal_cons, List.length_cons, pow_succ]
    cases b <;> simp <;> omega

lemma length_encAux (value length : Nat) : (encAux value length).length = length := by
  induction length generalizing value with
  | zero => rfl
  | succ n ih => simp [encAux, ih]

lemma length_encode_bits (value length : Nat) : (encode_bits value length).length = length := by
  simp [encode_bits, length_encAux]

lemma encode_bits_succ (value length : Nat) :
    encode_bits value (length + 1) = encode_bits (value >>> 1) length ++ [value &&& 1 == 1] := by
  simp [encode_bits, encAux]

lemma bitsVal_encode_bits (value length : Nat) :
    bitsVal (encode_bits value length) = value % 2 ^ length := by
  induction length generalizing value with
  | zero => simp [encode_bits, encAux, bitsVal, Nat.mod_one]
  | succ n ih =>
    rw [encode_bits_succ, bitsVal_append, ih]
    have hb : (value &&& 1 == 1).toNat = value % 2 := by
      rw [Nat.and_one_is_mod]
      rcases Nat.mod_two_eq_zero_or_one value with h | h <;> simp [h]
    have hs : value >>> 1 = value / 2 := by
      rw [Nat.shiftRight_eq_div_pow, pow_one]
    have hm : value % (2 * 2 ^ n) = value % 2 + 2 * (value / 2 % 2 ^ n) := Nat.mod_mul
    simp only [List.length_cons, List.length_nil, bitsVal_cons, bitsVal_nil, pow_zero,
      mul_one, add_zero, pow_succ, pow_zero, one_mul]
    rw [Nat.mul_comm (2 ^ n) 2, hm, hs, hb]
    ring

lemma bytesToBits_append (l1 l2 : List Nat) :
    bytesToBits (l1 ++ l2) = bytesToBits l1 ++ bytesToBits l2 := by
  induction l1 with
  | nil => rfl
  | cons x t ih => simp [bytesToBits, ih]

lemma length_bytesToBits (l : List Nat) : (bytesToBits l).length = 8 * l.length := by
  induction l with
  | nil => rfl
  | cons x t ih =>
    simp [bytesToBits, ih, length_encode_bits]
    ring

lemma bytesToBits_drop (n : Nat) (l : List Nat) :
    bytesToBits (l.drop n) = (bytesToBits l).drop (8 * n) := by
  induction n generalizing l with
  | zero => simp
  | succ m ih =>
    cases l with
    | nil => simp [bytesToBits]
    | cons x t =>
      have h8 : 8 * (m + 1) = (encode_bits x 8).length + 8 * m := by
        rw [length_encode_bits]; ring
      simp only [List.drop_succ_cons, bytesToBits, h8, List.drop_append]
      exact ih t

lemma bytesToBits_take (n : Nat) (l : List Nat) :
    bytesToBits (l.take n) = (bytesToBits l).take (8 * n) := by
  induction n generalizing l with
  | zero => simp [bytesToBits]
  | succ m ih =>
    cases l with
    | nil => simp [bytesToBits]
    | cons x t =>
      have h8 : 8 * (m + 1) = (encode_bits x 8).length + 8 * m := by
        rw [length_encode_bits]; ring
      simp only [List.take_succ_cons, bytesToBits, bytesToBits_append, h8, List.take_append]
      rw [ih t]

lemma from_bytes_eq (l : List Nat) (h : ∀ x ∈ l, x < 256) :
    from_bytes l = bitsVal (bytesToBits l) := by
  induction l using List.reverseRecOn with
  | nil => rfl
  | append_singleton t x ih =>
    have hx : x < 256 := h x (by simp)
    have ht : ∀ y ∈ t, y < 256 := fun y hy => h y (by simp [hy])
    have h1 : from_bytes (t ++ [x]) = from_bytes t * 256 + x := by
      simp [from_bytes, List.foldl_append]
    rw [h1, bytesToBits_append, bitsVal_append, ih ht]
    have h2 : bytesToBits [x] = encode_bits x 8 := by simp [bytesToBits]
    rw [h2, length_encode_bits, bitsVal_encode_bits]
    have h3 : x % 2 ^ 8 = x := Nat.mod_eq_of_lt (by norm_num [hx])
    rw [h3]
    norm_num

lemma take_set_succ {α : Type} : ∀ (l : List α) (i : Nat) (a : α), i < l.length →
    (l.set i a).take (i + 1) = l.take i ++ [a]
  | x :: xs, 0, a, _ => by simp
  | x :: xs, i + 1, a, h => by
    have hi : i < xs.length := by simpa using h
    simp [take_set_succ xs i a hi]
  | [], i, a, h => absurd h (by simp)

lemma drop_set_later {α : Type} : ∀ (l : List α) (i : Nat) (a : α),
    (l.set i a).drop (i + 1) = l.drop (i + 1)
  | [], _, _ => by simp
  | x :: xs, 0, a => by simp
  | x :: xs, i + 1, a => by simp [drop_set_later xs i a]

lemma exists_cons_of_length_succ {α : Type} (l : List α) (n : Nat) (h : l.length = n + 1) :
    ∃ x t, t.length = n ∧ l = x :: t := by
  cases l with
  | nil => simp at h
  | cons x t => exact ⟨x, t, by simpa using h, rfl⟩

lemma list_bool_len8 (l : List Bool) (hl : l.length = 8) :
    ∃ a b c d e f g h, l = [a, b, c, d, e, f, g, h] := by
  obtain ⟨a, l1, h1, rfl⟩ := exists_cons_of_length_succ l 7 hl
  obtain ⟨b, l2, h2, rfl⟩ := exists_cons_of_length_succ l1 6 h1
  obtain ⟨c, l3, h3, rfl⟩ := exists_cons_of_length_succ l2 5 h2
  obtain ⟨d, l4, h4, rfl⟩ := exists_cons_of_length_succ l3 4 h3
  obtain ⟨e, l5, h5, rfl⟩ := exists_cons_of_length_succ l4 3 h4
  obtain ⟨f, l6, h6, rfl⟩ := exists_cons_of_length_succ l5 2 h5
  obtain ⟨g, l7, h7, rfl⟩ := exists_cons_of_length_succ l6 1 h6
  obtain ⟨h, l8, h8, rfl⟩ := exists_cons_of_length_succ l7 0 h7
  have : l8 = [] := List.length_eq_zero.mp h8
  exact ⟨a, b, c, d, e, f, g, h, by rw [this]⟩

lemma encode_bits_bufferByte_aux : ∀ (a b c d e f g h : Bool),
    encode_bits (bufferByte [a, b, c, d, e, f, g, h]) 8 = [a, b, c, d, e, f, g, h] := by
  decide

lemma bufferByte_lt_aux : ∀ (a b c d e f g h : Bool),
    bufferByte [a, b, c, d, e, f, g, h] < 256 := by
  decide

lemma encode_bits_bufferByte {l : List Bool} (hl : l.length = 8) :
    encode_bits (bufferByte l) 8 = l := by
  obtain ⟨a, b, c, d, e, f, g, h, rfl⟩ := list_bool_len8 l hl
  exact encode_bits_bufferByte_aux a b c d e f g h

lemma bufferByte_lt {l : List Bool} (hl : l.length = 8) : bufferByte l < 256 := by
  obtain ⟨a, b, c, d, e, f, g, h, rfl⟩ := list_bool_len8 l hl
  exact bufferByte_lt_aux a b c d e f g h

lemma drop_false_of_getD : ∀ (l : List Bool) (n : Nat),
    (∀ i, n ≤ i → l.getD i false = false) →
    l.drop n = List.replicate (l.length - n) false
  | [], n, _ => by simp
  | x :: t, 0, h => by
    have hx : x = false := h 0 (by omega)
    have ht : t = List.replicate t.length false := by
      have h0 := drop_false_of_getD t 0 (fun i _ => h (i + 1) (by omega))
      simpa using h0
    rw [List.drop_zero, hx]
    simp only [List.length_cons, Nat.sub_zero, List.replicate_succ]
    rw [← ht]
  | x :: t, n + 1, h => by
    have ht : t.drop n = List.replicate (t.length - n) false :=
      drop_false_of_getD t n (fun i hi => h (i + 1) (by omega))
    simpa using ht

lemma getD_replicate_false (i n : Nat) : (List.replicate n false).getD i false = false := by
  rw [List.getD_eq_getElem?_getD, List.getElem?_replicate]
  split <;> rfl

lemma wf_init (data : List Nat) (h : ∀ x ∈ data, x < 256) : (BitArray.init data).wf := by
  refine ⟨by simp [BitArray.init], by simp [BitArray.init], ?_, h⟩
  intro i _
  exact getD_replicate_false i 8

lemma wf_empty : BitArray.empty.wf := wf_init [] (by simp)

lemma bitsOf_empty : bitsOf BitArray.empty = [] := by
  simp [bitsOf, BitArray.empty, BitArray.init, bytesToBits]

lemma add_bit_wf_bits {b : BitArray} (hwf : b.wf) (bit : Bool) :
    (b.add_bit bit).wf ∧ bitsOf (b.add_bit bit) = bitsOf b ++ [bit] := by
  obtain ⟨hl, hi, hz, hd⟩ := hwf
  by_cases h8 : b.index + 1 = 8
  · have hsetlen : (b.buffer.set b.index bit).length = 8 := by simp [hl]
    have htake : (b.buffer.set b.index bit).take (b.index + 1) = b.buffer.take b.index ++ [bit] :=
      take_set_succ _ _ _ (by omega)
    have heq : b.buffer.set b.index bit = b.buffer.take b.index ++ [bit] := by
      calc b.buffer.set b.index bit = (b.buffer.set b.index bit).take 8 :=
            (List.take_of_length_le (by rw [hsetlen])).symm
        _ = (b.buffer.set b.index bit).take (b.index + 1) := by rw [h8]
        _ = b.buffer.take b.index ++ [bit] := htake
    constructor
    · simp only [BitArray.add_bit]
      rw [if_pos h8]
      refine ⟨by simp, by norm_num, ?_, ?_⟩
      · intro i _
        exact getD_replicate_false i 8
      · intro x hx
        rcases List.mem_append.mp hx with h | h
        · exact hd x h
        · simp only [List.mem_singleton] at h
          subst h
          exact bufferByte_lt hsetlen
    · simp only [bitsOf, BitArray.add_bit]
      rw [if_pos h8]
      simp only [List.take_zero, List.append_nil]
      rw [bytesToBits_append]
      have h1 : bytesToBits [bufferByte (b.buffer.set b.index bit)] =
          encode_bits (bufferByte (b.buffer.set b.index bit)) 8 := by
        simp [bytesToBits]
      rw [h1, encode_bits_bufferByte hsetlen, heq, List.append_assoc]
  · have hlt : b.index + 1 < 8 := by omega
    constructor
    · simp only [BitArray.add_bit]
      rw [if_neg h8]
      refine ⟨by simp [hl], hlt, ?_, hd⟩
      intro i hi1
      have hi2 : b.index + 1 ≤ i := hi1
      have hne : b.index ≠ i := by omega
      show (b.buffer.set b.index bit).getD i false = false
      rw [List.getD_eq_getElem?_getD, List.getElem?_set_ne hne, ← List.getD_eq_getElem?_getD]
      exact hz i (by omega)
    · simp only [bitsOf, BitArray.add_bit]
      rw [if_neg h8]
      simp only
      rw [take_set_succ _ _ _ (by rw [hl]; omega), List.append_assoc]

lemma add_bits_wf_bits : ∀ (bits : List Bool) {b : BitArray}, b.wf →
    (b.add_bits bits).wf ∧ bitsOf (b.add_bits bits) = bitsOf b ++ bits
  | [], _, hwf => ⟨hwf, by simp [BitArray.add_bits]⟩
  | bit :: rest, b, hwf => by
    have h1 := add_bit_wf_bits hwf bit
    have h2 := add_bits_wf_bits rest h1.1
    have hfold : b.add_bits (bit :: rest) = (b.add_bit bit).add_bits rest := by
      simp [BitArray.add_bits]
    rw [hfold]
    refine ⟨h2.1, ?_⟩
    rw [h2.2, h1.2, List.append_assoc]
    rfl

lemma add_bits_append (b : BitArray) (xs ys : List Bool) :
    (b.add_bits xs).add_bits ys = b.add_bits (xs ++ ys) := by
  simp [BitArray.add_bits, List.foldl_append]

lemma to_bytes_spec {b : BitArray} (hwf : b.wf) :
    (∀ x ∈ b.to_bytes, x < 256) ∧
      bytesToBits b.to_bytes = bitsOf b ++ List.replicate ((8 - b.index) % 8) false := by
  obtain ⟨hl, hi, hz, hd⟩ := hwf
  by_cases h0 : b.index > 0
  · have hmod : (8 - b.index) % 8 = 8 - b.index := Nat.mod_eq_of_lt (by omega)
    have hdropbuf : b.buffer.drop b.index = List.replicate (8 - b.index) false := by
      have h := drop_false_of_getD b.buffer b.index hz
      rwa [hl] at h
    have hsplit : b.buffer = b.buffer.take b.index ++ List.replicate (8 - b.index) false := by
      rw [← hdropbuf, List.take_append_drop]
    constructor
    · intro x hx
      simp only [BitArray.to_bytes] at hx
      rw [if_pos h0] at hx
      rcases List.mem_append.mp hx with h | h
      · exact hd x h
      · simp only [List.mem_singleton] at h
        subst h
        exact bufferByte_lt hl
    · simp only [BitArray.to_bytes, bitsOf]
      rw [if_pos h0, bytesToBits_append, hmod]
      have h1 : bytesToBits [bufferByte b.buffer] = encode_bits (bufferByte b.buffer) 8 := by
        simp [bytesToBits]
      rw [h1, encode_bits_bufferByte hl]
      conv_lhs => rw [hsplit]
      rw [List.append_assoc]
  · have hidx : b.index = 0 := by omega
    constructor
    · intro x hx
      simp only [BitArray.to_bytes] at hx
      rw [if_neg h0] at hx
      exact hd x hx
    · simp only [BitArray.to_bytes, bitsOf]
      rw [if_neg h0, hidx]
      simp

lemma read_bits_lt (b : BitArray) (idx len : Nat) : b.read_bits idx len < 2 ^ len := by
  simp only [BitArray.read_bits]
  have hmask : (1 <<< len) - 1 < 2 ^ len := by
    rw [Nat.shiftLeft_eq, one_mul]
    have := Nat.two_pow_pos len
    omega
  exact Nat.and_lt_two_pow _ hmask

lemma read_bits_zero_of_ge {b : BitArray} (idx len : Nat) (h : b.data.length ≤ idx / 8) :
    b.read_bits idx len = 0 := by
  simp only [BitArray.read_bits]
  rw [List.drop_eq_nil_of_le h]
  simp [from_bytes, Nat.zero_shiftRight, Nat.zero_and]

lemma read_bits_eq_bitsVal {b : BitArray} (h256 : ∀ x ∈ b.data, x < 256) (idx len : Nat)
    (hb : idx + len ≤ 8 * b.data.length) :
    b.read_bits idx len = bitsVal (((bytesToBits b.data).drop idx).take len) := by
  have hBlen : (bytesToBits b.data).length = 8 * b.data.length := length_bytesToBits _
  simp only [BitArray.read_bits]
  set s := idx / 8 with hs
  set e := (idx + len + 7) / 8 with he
  have h8s : 8 * s ≤ idx := by omega
  have hide : idx + len ≤ 8 * e := by omega
  have heL : e ≤ b.data.length := by omega
  have h8e : 8 * e ≤ idx + len + 7 := by omega
  have hshift : ((8 - ((idx : Int) + (len : Int))) % 8).toNat = 8 * e - (idx + len) := by
    omega
  have hmem : ∀ x ∈ (b.data.drop s).take (e - s), x < 256 := fun x hx =>
    h256 x (List.mem_of_mem_drop (List.mem_of_mem_take hx))
  have hslice : bytesToBits ((b.data.drop s).take (e - s)) =
      ((bytesToBits b.data).drop (8 * s)).take (8 * (e - s)) := by
    rw [bytesToBits_take, bytesToBits_drop]
  have hfb : from_bytes ((b.data.drop s).take (e - s)) =
      bitsVal (((bytesToBits b.data).drop (8 * s)).take (8 * (e - s))) := by
    rw [from_bytes_eq _ hmem, hslice]
  have hsplit1 : ((bytesToBits b.data).drop (8 * s)).take (8 * (e - s)) =
      ((bytesToBits b.data).drop (8 * s)).take (idx - 8 * s) ++
        ((bytesToBits b.data).drop idx).take (len + (8 * e - (idx + len))) := by
    have h1 : 8 * (e - s) = (idx - 8 * s) + (len + (8 * e - (idx + len))) := by omega
    rw [h1, List.take_add, List.drop_drop]
    have h2 : 8 * s + (idx - 8 * s) = idx := by omega
    rw [h2]
  have hsplit2 : ((bytesToBits b.data).drop idx).take (len + (8 * e - (idx + len))) =
      ((bytesToBits b.data).drop idx).take len ++
        ((bytesToBits b.data).drop (idx + len)).take (8 * e - (idx + len)) := by
    rw [List.take_add, List.drop_drop]
  have hlen2 : (((bytesToBits b.data).drop idx).take len).length = len := by
    rw [List.length_take, List.length_drop, hBlen]
    omega
  have hlen3 : (((bytesToBits b.data).drop (idx + len)).take (8 * e - (idx + len))).length =
      8 * e - (idx + len) := by
    rw [List.length_take, List.length_drop, hBlen]
    omega
  have hlt2 : bitsVal (((bytesToBits b.data).drop idx).take len) < 2 ^ len := by
    have h := bitsVal_lt (((bytesToBits b.data).drop idx).take len)
    rwa [hlen2] at h
  have hlt3 : bitsVal (((bytesToBits b.data).drop (idx + len)).take (8 * e - (idx + len))) <
      2 ^ (8 * e - (idx + len)) := by
    have h := bitsVal_lt (((bytesToBits b.data).drop (idx + len)).take (8 * e - (idx + len)))
    rwa [hlen3] at h
  rw [hfb, hsplit1, hsplit2, bitsVal_append, bitsVal_append, hshift,
    List.length_append, hlen2, hlen3, Nat.shiftRight_eq_div_pow,
    Nat.shiftLeft_eq, one_mul, Nat.and_pow_two_sub_one_eq_mod]
  have hdiv : (bitsVal (((bytesToBits b.data).drop (8 * s)).take (idx - 8 * s)) *
        2 ^ (len + (8 * e - (idx + len))) +
        (bitsVal (((bytesToBits b.data).drop idx).take len) * 2 ^ (8 * e - (idx + len)) +
          bitsVal (((bytesToBits b.data).drop (idx + len)).take (8 * e - (idx + len))))) /
        2 ^ (8 * e - (idx + len)) =
      bitsVal (((bytesToBits b.data).drop (8 * s)).take (idx - 8 * s)) * 2 ^ len +
        bitsVal (((bytesToBits b.data).drop idx).take len) := by
    rw [pow_add]
    have hre : bitsVal (((bytesToBits b.data).drop (8 * s)).take (idx - 8 * s)) *
          (2 ^ len * 2 ^ (8 * e - (idx + len))) +
          (bitsVal (((bytesToBits b.data).drop idx).take len) * 2 ^ (8 * e - (idx + len)) +
            bitsVal (((bytesToBits b.data).drop (idx + len)).take (8 * e - (idx + len)))) =
        2 ^ (8 * e - (idx + len)) *
          (bitsVal (((bytesToBits b.data).drop (8 * s)).take (idx - 8 * s)) * 2 ^ len +
            bitsVal (((bytesToBits b.data).drop idx).take len)) +
          bitsVal (((bytesToBits b.data).drop (idx + len)).take (8 * e - (idx + len))) := by
      ring
    rw [hre, Nat.mul_add_div (Nat.two_pow_pos _), Nat.div_eq_of_lt hlt3, add_zero]
  rw [hdiv, Nat.mul_comm _ (2 ^ len), Nat.mul_add_mod, Nat.mod_eq_of_lt hlt2]

lemma read_of_drop {b : BitArray} (h256 : ∀ x ∈ b.data, x < 256)
    {idx : Nat} {pre rest : List Bool}
    (hdrop : (bytesToBits b.data).drop idx = pre ++ rest)
    (j n : Nat) (hjn : j + n ≤ pre.length) :
    b.read_bits (idx + j) n = bitsVal ((pre.drop j).take n) := by
  by_cases hn : n = 0
  · subst hn
    simp only [BitArray.read_bits, List.take_zero, bitsVal_nil]
    rw [Nat.shiftLeft_eq, one_mul, Nat.and_pow_two_sub_one_eq_mod, pow_zero, Nat.mod_one]
  · have hBlen : (bytesToBits b.data).length = 8 * b.data.length := length_bytesToBits _
    have hdl : ((bytesToBits b.data).drop idx).length = (bytesToBits b.data).length - idx :=
      List.length_drop _ _
    rw [hdrop, List.length_append, hBlen] at hdl
    have hb2 : idx + j + n ≤ 8 * b.data.length := by omega
    rw [read_bits_eq_bitsVal h256 (idx + j) n hb2]
    congr 1
    rw [← List.drop_drop, hdrop, List.drop_append_eq_append_drop,
      Nat.sub_eq_zero_of_le (by omega : j ≤ pre.length), List.drop_zero,
      List.take_append_of_le_length (by rw [List.length_drop]; omega)]

lemma DIFF_VAL_eq : DIFF_VAL = 3 := by decide

lemma DIFF_MOD_eq : DIFF_MOD = 8 := by decide

lemma MIN_DIFF_eq : MIN_DIFF = -8 := by decide

lemma MAX_DIFF_eq : MAX_DIFF = 7 := by decide

lemma encChan_ok (step_size : Nat) (hs : step_size ≠ 0) :
    ∀ (vals : List Nat) (cur : Nat) (ba : BitArray) (eidx : Nat),
    encChan step_size vals cur ba eidx =
      .ok (ba.add_bits (encBitsChan cur vals), eidx + vals.length) := by
  intro vals
  induction vals with
  | nil =>
    intro cur ba eidx
    simp [encChan, encBitsChan, BitArray.add_bits]
  | cons val rest ih =>
    intro cur ba eidx
    simp only [encChan]
    rw [if_neg hs, ih val _ (eidx + 1)]
    have hba : (if (val : Int) - (cur : Int) < MIN_DIFF ∨ (val : Int) - (cur : Int) > MAX_DIFF then
          (ba.add_bits [false]).add_bits (encode_bits val 8)
        else ((ba.add_bits [true]).add_bits [decide ((val : Int) - (cur : Int) < 0)]).add_bits
          (encode_bits (((val : Int) - (cur : Int)) % (DIFF_MOD : Int)).toNat DIFF_VAL)) =
        ba.add_bits (encBitsSample cur val) := by
      simp only [encBitsSample]
      by_cases hc : (val : Int) - (cur : Int) < MIN_DIFF ∨ (val : Int) - (cur : Int) > MAX_DIFF
      · rw [if_pos hc, if_pos hc, add_bits_append, List.singleton_append]
      · rw [if_neg hc, if_neg hc, add_bits_append, add_bits_append]
        simp
    rw [hba, add_bits_append]
    have hcount : eidx + 1 + rest.length = eidx + (rest.length + 1) := by omega
    rw [hcount]
    simp [encBitsChan]

lemma encChan_zero (vals : List Nat) (h : vals ≠ []) (cur : Nat) (ba : BitArray) (eidx : Nat) :
    encChan 0 vals cur ba eidx = .error PyError.zeroDivisionError := by
  cases vals with
  | nil => exact absurd rfl h
  | cons v rest => simp [encChan]

lemma encode_image_eq (w h : Nat) (pixels : PixelList)
    (hcase : 3 * w * h / 100 ≠ 0 ∨ pixels = []) :
    encode_image w h pixels =
      .ok ((BitArray.empty.add_bits
        (encode_bits w 16 ++ encode_bits h 16 ++
          encBitsChan 0 (pixels.map fun p => p.1) ++
          encBitsChan 0 (pixels.map fun p => p.2.1) ++
          encBitsChan 0 (pixels.map fun p => p.2.2))).to_bytes) := by
  rcases hcase with hs | hnil
  · simp only [encode_image]
    simp only [encChan_ok _ hs]
    simp only [add_bits_append]
  · subst hnil
    simp [encode_image, encChan, encBitsChan, add_bits_append]

lemma decChan_ok {b : BitArray} (h256 : ∀ x ∈ b.data, x < 256) (step_size : Nat)
    (hs : step_size ≠ 0) :
    ∀ (vals : List Nat) (cur idx didx : Nat) (rest : List Bool),
      (bytesToBits b.data).drop idx = encBitsChan cur vals ++ rest →
      (∀ v ∈ vals, v < 256) →
      decChan b step_size vals.length idx (cur : Int) didx =
        .ok (vals.map (fun (v : Nat) => (v : Int)), idx + (encBitsChan cur vals).length,
          didx + vals.length) := by
  intro vals
  induction vals with
  | nil =>
    intro cur idx didx rest hdrop hvals
    simp [decChan, encBitsChan]
  | cons val tail ih =>
    intro cur idx didx rest hdrop hvals
    have hvt : ∀ v ∈ tail, v < 256 := fun v hv => hvals v (by simp [hv])
    have hv256 : val < 256 := hvals val (by simp)
    have hdrop' : (bytesToBits b.data).drop idx =
        encBitsSample cur val ++ (encBitsChan val tail ++ rest) := by
      rw [hdrop]
      simp [encBitsChan, List.append_assoc]
    by_cases hc : (val : Int) - (cur : Int) < MIN_DIFF ∨ (val : Int) - (cur : Int) > MAX_DIFF
    · have hsample : encBitsSample cur val = false :: encode_bits val 8 := by
        simp only [encBitsSample]
        rw [if_pos hc]
      rw [hsample] at hdrop'
      have hlen9 : (false :: encode_bits val 8).length = 9 := by
        simp [length_encode_bits]
      have hflag : b.read_bits idx 1 = 0 := by
        have h := read_of_drop h256 hdrop' 0 1 (by rw [hlen9]; omega)
        rw [Nat.add_zero] at h
        rw [h]
        rfl
      have hval8 : b.read_bits (idx + 1) 8 = val := by
        have h := read_of_drop h256 hdrop' 1 8 (by rw [hlen9])
        rw [h]
        have h2 : ((false :: encode_bits val 8).drop 1).take 8 = encode_bits val 8 := by
          simp [List.take_of_length_le, length_encode_bits]
        rw [h2, bitsVal_encode_bits]
        exact Nat.mod_eq_of_lt (by omega)
      have hdroptail : (bytesToBits b.data).drop (idx + 1 + 8) =
          encBitsChan val tail ++ rest := by
        have h := congrArg (List.drop 9) hdrop'
        rw [List.drop_drop, List.drop_left' hlen9] at h
        have h9 : idx + 1 + 8 = idx + 9 := by omega
        rw [h9]
        exact h
      simp only [List.length_cons, decChan]
      rw [hflag]
      rw [if_neg (by simp : ¬ ((0 : Nat) ≠ 0))]
      rw [hval8, if_neg hs]
      rw [ih val (idx + 1 + 8) (didx + 1) rest hdroptail hvt]
      have hfinal : idx + 1 + 8 + (encBitsChan val tail).length =
          idx + (encBitsChan cur (val :: tail)).length := by
        simp only [encBitsChan, hsample, List.length_append, hlen9]
        omega
      have hfinal2 : didx + 1 + tail.length = didx + (tail.length + 1) := by omega
      rw [hfinal, hfinal2]
      simp
    · have hDM : ((DIFF_MOD : Nat) : Int) = 8 := by rw [DIFF_MOD_eq]; rfl
      have hnc : -8 ≤ (val : Int) - (cur : Int) ∧ (val : Int) - (cur : Int) ≤ 7 := by
        rw [MIN_DIFF_eq, MAX_DIFF_eq] at hc
        omega
      have hsample : encBitsSample cur val =
          true :: decide ((val : Int) - (cur : Int) < 0) ::
            encode_bits ((((val : Int) - (cur : Int)) % (DIFF_MOD : Int)).toNat) DIFF_VAL := by
        simp only [encBitsSample]
        rw [if_neg hc]
      rw [hsample] at hdrop'
      have hlen5 : (true :: decide ((val : Int) - (cur : Int) < 0) ::
          encode_bits ((((val : Int) - (cur : Int)) % (DIFF_MOD : Int)).toNat) DIFF_VAL).length
          = 5 := by
        simp [length_encode_bits, DIFF_VAL_eq]
      have hflag : b.read_bits idx 1 = 1 := by
        have h := read_of_drop h256 hdrop' 0 1 (by rw [hlen5]; omega)
        rw [Nat.add_zero] at h
        rw [h]
        rfl
      have hsign : b.read_bits (idx + 1) 1 =
          (decide ((val : Int) - (cur : Int) < 0)).toNat := by
        have h := read_of_drop h256 hdrop' 1 1 (by rw [hlen5]; omega)
        rw [h]
        have h2 : ((true :: decide ((val : Int) - (cur : Int) < 0) ::
            encode_bits ((((val : Int) - (cur : Int)) % (DIFF_MOD : Int)).toNat) DIFF_VAL).drop
              1).take 1 = [decide ((val : Int) - (cur : Int) < 0)] := rfl
        rw [h2, bitsVal_cons, bitsVal_nil]
        simp
      have hmagbound : (((val : Int) - (cur : Int)) % (DIFF_MOD : Int)).toNat < 8 := by
        rw [hDM]
        omega
      have hmag : b.read_bits (idx + 1 + 1) DIFF_VAL =
          (((val : Int) - (cur : Int)) % (DIFF_MOD : Int)).toNat := by
        have harith : idx + 1 + 1 = idx + 2 := by omega
        have h := read_of_drop h256 hdrop' 2 DIFF_VAL (by rw [hlen5, DIFF_VAL_eq])
        rw [harith, h]
        have h2 : ((true :: decide ((val : Int) - (cur : Int) < 0) ::
            encode_bits ((((val : Int) - (cur : Int)) % (DIFF_MOD : Int)).toNat) DIFF_VAL).drop
              2).take DIFF_VAL =
            encode_bits ((((val : Int) - (cur : Int)) % (DIFF_MOD : Int)).toNat) DIFF_VAL := by
          simp [List.take_of_length_le, length_encode_bits]
        rw [h2, bitsVal_encode_bits]
        apply Nat.mod_eq_of_lt
        rw [DIFF_VAL_eq]
        norm_num
        exact hmagbound
      have hdroptail : (bytesToBits b.data).drop (idx + 1 + 1 + DIFF_VAL) =
          encBitsChan val tail ++ rest := by
        have h := congrArg (List.drop 5) hdrop'
        rw [List.drop_drop, List.drop_left' hlen5] at h
        have h5 : idx + 1 + 1 + DIFF_VAL = idx + 5 := by rw [DIFF_VAL_eq]
        rw [h5]
        exact h
      simp only [List.length_cons, decChan]
      rw [hflag]
      rw [if_pos (by simp : ((1 : Nat) ≠ 0))]
      rw [hsign, hmag, if_neg hs]
      have hv : (cur : Int) +
          (if (decide ((val : Int) - (cur : Int) < 0)).toNat ≠ 0 then
            (((((val : Int) - (cur : Int)) % (DIFF_MOD : Int)).toNat : Nat) : Int) -
              ((DIFF_MOD : Nat) : Int)
          else (((((val : Int) - (cur : Int)) % (DIFF_MOD : Int)).toNat : Nat) : Int)) =
          (val : Int) := by
        rw [hDM]
        by_cases hneg : (val : Int) - (cur : Int) < 0
        · rw [if_pos (by simp [hneg])]
          omega
        · rw [if_neg (by simp [hneg])]
          omega
      rw [hv]
      rw [ih val (idx + 1 + 1 + DIFF_VAL) (didx + 1) rest hdroptail hvt]
      have hfinal : idx + 1 + 1 + DIFF_VAL + (encBitsChan val tail).length =
          idx + (encBitsChan cur (val :: tail)).length := by
        simp only [encBitsChan, hsample, List.length_append, hlen5]
        rw [DIFF_VAL_eq]
        omega
      have hfinal2 : didx + 1 + tail.length = didx + (tail.length + 1) := by omega
      rw [hfinal, hfinal2]
      simp

lemma zip3_map (pixels : PixelList) :
    (((pixels.map fun p => p.1).map fun (v : Nat) => (v : Int)).zip
      (((pixels.map fun p => p.2.1).map fun (v : Nat) => (v : Int)).zip
        ((pixels.map fun p => p.2.2).map fun (v : Nat) => (v : Int)))) =
    pixels.map fun p => ((p.1 : Int), (p.2.1 : Int), (p.2.2 : Int)) := by
  induction pixels with
  | nil => rfl
  | cons p t ih => simp only [List.map_cons, List.zip_cons_cons, ih]

lemma decode_image_eq (w h : Nat) (pixels : PixelList) (data : List Nat) (k : Nat)
    (hw : w < 65536) (hh : h < 65536)
    (hlen : pixels.length = w * h)
    (hvals : ∀ p ∈ pixels, p.1 < 256 ∧ p.2.1 < 256 ∧ p.2.2 < 256)
    (h256 : ∀ x ∈ data, x < 256)
    (hBB : bytesToBits data =
      (encode_bits w 16 ++ encode_bits h 16 ++
        encBitsChan 0 (pixels.map fun p => p.1) ++
        encBitsChan 0 (pixels.map fun p => p.2.1) ++
        encBitsChan 0 (pixels.map fun p => p.2.2)) ++ List.replicate k false)
    (hcase : 100 ≤ 3 * w * h ∨ w * h = 0) :
    decode_image data =
      .ok (w, h, pixels.map fun p => ((p.1 : Int), (p.2.1 : Int), (p.2.2 : Int))) := by
  have hlw : (encode_bits w 16).length = 16 := length_encode_bits w 16
  have hlh : (encode_bits h 16).length = 16 := length_encode_bits h 16
  have hpow : (65536 : Nat) = 2 ^ 16 := by norm_num
  have h256i : ∀ x ∈ (BitArray.init data).data, x < 256 := h256
  have hdrop0 : (bytesToBits (BitArray.init data).data).drop 0 =
      encode_bits w 16 ++ (encode_bits h 16 ++
        (encBitsChan 0 (pixels.map fun p => p.1) ++
          (encBitsChan 0 (pixels.map fun p => p.2.1) ++
            (encBitsChan 0 (pixels.map fun p => p.2.2) ++ List.replicate k false)))) := by
    show (bytesToBits data).drop 0 = _
    rw [List.drop_zero, hBB]
    simp [List.append_assoc]
  have hwidth : (BitArray.init data).read_bits 0 16 = w := by
    have hrd := read_of_drop h256i hdrop0 0 16 (by simp [hlw])
    have hval : bitsVal (((encode_bits w 16).drop 0).take 16) = w := by
      rw [List.drop_zero, List.take_of_length_le (le_of_eq hlw), bitsVal_encode_bits]
      exact Nat.mod_eq_of_lt (hpow ▸ hw)
    exact hrd.trans hval
  have hdrop16 : (bytesToBits (BitArray.init data).data).drop 16 =
      encode_bits h 16 ++
        (encBitsChan 0 (pixels.map fun p => p.1) ++
          (encBitsChan 0 (pixels.map fun p => p.2.1) ++
            (encBitsChan 0 (pixels.map fun p => p.2.2) ++ List.replicate k false))) := by
    show (bytesToBits data).drop 16 = _
    rw [hBB]
    simp only [List.append_assoc]
    exact List.drop_left' hlw
  have hheight : (BitArray.init data).read_bits 16 16 = h := by
    have hrd := read_of_drop h256i hdrop16 0 16 (by simp [hlh])
    have hval : bitsVal (((encode_bits h 16).drop 0).take 16) = h := by
      rw [List.drop_zero, List.take_of_length_le (le_of_eq hlh), bitsVal_encode_bits]
      exact Nat.mod_eq_of_lt (hpow ▸ hh)
    exact hrd.trans hval
  simp only [decode_image]
  rw [hwidth, hheight]
  rcases hcase with hbig | hzero
  · have hs : 3 * w * h / 100 ≠ 0 := by
      have := Nat.div_pos hbig (by norm_num : 0 < 100)
      omega
    have hvR : ∀ v ∈ pixels.map (fun p => p.1), v < 256 := by
      intro v hv
      obtain ⟨p, hp, rfl⟩ := List.mem_map.mp hv
      exact (hvals p hp).1
    have hvG : ∀ v ∈ pixels.map (fun p => p.2.1), v < 256 := by
      intro v hv
      obtain ⟨p, hp, rfl⟩ := List.mem_map.mp hv
      exact (hvals p hp).2.1
    have hvB : ∀ v ∈ pixels.map (fun p => p.2.2), v < 256 := by
      intro v hv
      obtain ⟨p, hp, rfl⟩ := List.mem_map.mp hv
      exact (hvals p hp).2.2
    have hlR : (pixels.map fun p => p.1).length = w * h := by
      rw [List.length_map, hlen]
    have hlG : (pixels.map fun p => p.2.1).length = w * h := by
      rw [List.length_map, hlen]
    have hlB : (pixels.map fun p => p.2.2).length = w * h := by
      rw [List.length_map, hlen]
    have hdrop32 : (bytesToBits (BitArray.init data).data).drop 32 =
        encBitsChan 0 (pixels.map fun p => p.1) ++
          (encBitsChan 0 (pixels.map fun p => p.2.1) ++
            (encBitsChan 0 (pixels.map fun p => p.2.2) ++ List.replicate k false)) := by
      show (bytesToBits data).drop 32 = _
      rw [hBB]
      have hsplit : (encode_bits w 16 ++ encode_bits h 16 ++
          encBitsChan 0 (pixels.map fun p => p.1) ++
          encBitsChan 0 (pixels.map fun p => p.2.1) ++
          encBitsChan 0 (pixels.map fun p => p.2.2)) ++ List.replicate k false =
        (encode_bits w 16 ++ encode_bits h 16) ++
          (encBitsChan 0 (pixels.map fun p => p.1) ++
            (encBitsChan 0 (pixels.map fun p => p.2.1) ++
              (encBitsChan 0 (pixels.map fun p => p.2.2) ++ List.replicate k false))) := by
        simp [List.append_assoc]
      rw [hsplit]
      exact List.drop_left' (by rw [List.length_append, hlw, hlh])
    have hdec1 := decChan_ok h256i (3 * w * h / 100) hs (pixels.map fun p => p.1)
      0 32 0 _ hdrop32 hvR
    have hdropG : (bytesToBits (BitArray.init data).data).drop
        (32 + (encBitsChan 0 (pixels.map fun p => p.1)).length) =
        encBitsChan 0 (pixels.map fun p => p.2.1) ++
          (encBitsChan 0 (pixels.map fun p => p.2.2) ++ List.replicate k false) := by
      show (bytesToBits data).drop _ = _
      rw [hBB]
      have hsplit : (encode_bits w 16 ++ encode_bits h 16 ++
          encBitsChan 0 (pixels.map fun p => p.1) ++
          encBitsChan 0 (pixels.map fun p => p.2.1) ++
          encBitsChan 0 (pixels.map fun p => p.2.2)) ++ List.replicate k false =
        ((encode_bits w 16 ++ encode_bits h 16) ++ encBitsChan 0 (pixels.map fun p => p.1)) ++
          (encBitsChan 0 (pixels.map fun p => p.2.1) ++
            (encBitsChan 0 (pixels.map fun p => p.2.2) ++ List.replicate k false)) := by
        simp [List.append_assoc]
      rw [hsplit]
      exact List.drop_left' (by rw [List.length_append, List.length_append, hlw, hlh])
    have hdec2 := decChan_ok h256i (3 * w * h / 100) hs (pixels.map fun p => p.2.1)
      0 (32 + (encBitsChan 0 (pixels.map fun p => p.1)).length) (0 + w * h) _ hdropG hvG
    have hdropB : (bytesToBits (BitArray.init data).data).drop
        (32 + (encBitsChan 0 (pixels.map fun p => p.1)).length +
          (encBitsChan 0 (pixels.map fun p => p.2.1)).length) =
        encBitsChan 0 (pixels.map fun p => p.2.2) ++ List.replicate k false := by
      show (bytesToBits data).drop _ = _
      rw [hBB]
      have hsplit : (encode_bits w 16 ++ encode_bits h 16 ++
          encBitsChan 0 (pixels.map fun p => p.1) ++
          encBitsChan 0 (pixels.map fun p => p.2.1) ++
          encBitsChan 0 (pixels.map fun p => p.2.2)) ++ List.replicate k false =
        (((encode_bits w 16 ++ encode_bits h 16) ++ encBitsChan 0 (pixels.map fun p => p.1)) ++
            encBitsChan 0 (pixels.map fun p => p.2.1)) ++
          (encBitsChan 0 (pixels.map fun p => p.2.2) ++ List.replicate k false) := by
        simp [List.append_assoc]
      rw [hsplit]
      exact List.drop_left'
        (by rw [List.length_append, List.length_append, List.length_append, hlw, hlh])
    have hdec3 := decChan_ok h256i (3 * w * h / 100) hs (pixels.map fun p => p.2.2)
      0 (32 + (encBitsChan 0 (pixels.map fun p => p.1)).length +
        (encBitsChan 0 (pixels.map fun p => p.2.1)).length)
      (0 + w * h + w * h) _ hdropB hvB
    rw [hlR] at hdec1
    rw [hlG] at hdec2
    rw [hlB] at hdec3
    rw [Nat.cast_zero] at hdec1 hdec2 hdec3
    simp only [hdec1, hdec2, hdec3]
    rw [zip3_map]
  · have hpix : pixels = [] := List.eq_nil_of_length_eq_zero (by omega)
    subst hpix
    rw [hzero]
    simp [decChan]

lemma round_trip_aux (w h : Nat) (pixels : PixelList)
    (hw : w < 65536) (hh : h < 65536)
    (hlen : pixels.length = w * h)
    (hvals : ∀ p ∈ pixels, p.1 < 256 ∧ p.2.1 < 256 ∧ p.2.2 < 256)
    (hcase : 100 ≤ 3 * w * h ∨ w * h = 0) :
    ∃ data, encode_image w h pixels = .ok data ∧
      decode_image data =
        .ok (w, h, pixels.map fun p => ((p.1 : Int), (p.2.1 : Int), (p.2.2 : Int))) := by
  have hcase2 : 3 * w * h / 100 ≠ 0 ∨ pixels = [] := by
    rcases hcase with h1 | h0
    · left
      have := Nat.div_pos h1 (by norm_num : 0 < 100)
      omega
    · right
      exact List.eq_nil_of_length_eq_zero (by omega)
  have henc := encode_image_eq w h pixels hcase2
  refine ⟨_, henc, ?_⟩
  have hwfe := add_bits_wf_bits (encode_bits w 16 ++ encode_bits h 16 ++
      encBitsChan 0 (pixels.map fun p => p.1) ++
      encBitsChan 0 (pixels.map fun p => p.2.1) ++
      encBitsChan 0 (pixels.map fun p => p.2.2)) wf_empty
  have hspec := to_bytes_spec hwfe.1
  have hBB := hspec.2
  rw [hwfe.2, bitsOf_empty, List.nil_append] at hBB
  exact decode_image_eq w h pixels _ _ hw hh hlen hvals hspec.1 hBB hcase

lemma encode_image_zeroDiv (w h : Nat) (pixels : PixelList)
    (hlen : pixels.length = w * h) (h1 : 0 < 3 * w * h) (h2 : 3 * w * h < 100) :
    encode_image w h pixels = .error PyError.zeroDivisionError := by
  simp only [encode_image]
  have hs : 3 * w * h / 100 = 0 := Nat.div_eq_of_lt h2
  rw [hs]
  have h3 : 3 * w * h = 3 * (w * h) := by ring
  have hne : pixels.map (fun p => p.1) ≠ [] := by
    intro hcon
    have hlm := congrArg List.length hcon
    rw [List.length_map, hlen, List.length_nil] at hlm
    omega
  rw [encChan_zero _ hne]

lemma decChan_zero (b : BitArray) (n idx : Nat) (v : Int) (didx : Nat) :
    decChan b 0 (n + 1) idx v didx = .error PyError.zeroDivisionError := by
  simp only [decChan]
  by_cases hf : b.read_bits idx 1 ≠ 0
  · rw [if_pos hf]
    simp
  · rw [if_neg hf]
    simp

lemma decode_image_zeroDiv (data : List Nat) (w h : Nat)
    (hw : (BitArray.init data).read_bits 0 16 = w)
    (hh : (BitArray.init data).read_bits 16 16 = h)
    (h1 : 0 < 3 * w * h) (h2 : 3 * w * h < 100) :
    decode_image data = .error PyError.zeroDivisionError := by
  simp only [decode_image]
  rw [hw, hh]
  have hs : 3 * w * h / 100 = 0 := Nat.div_eq_of_lt h2
  rw [hs]
  have h3 : 3 * w * h = 3 * (w * h) := by ring
  obtain ⟨n, hn⟩ : ∃ n, w * h = n + 1 := ⟨w * h - 1, by omega⟩
  rw [hn, decChan_zero]

/-- C1 counterexample: the claim fails as stated — for the valid 1x1 image
with pixel (0,0,0), `encode_image` raises ZeroDivisionError (the progress
step size is 3*1*1 // 100 = 0), so `decode_image` of its result cannot
return the original image. -/
theorem c1_counterexample_small_image :
    encode_image 1 1 [(0, 0, 0)] = Except.error PyError.zeroDivisionError := by
  rfl

/-- C1 (amended): for every valid image (width and height at most 65535,
pixel sequence of exactly width*height triples with channel values in
[0,255]) whose size avoids the progress division by zero — that is,
3*width*height is at least 100, or width*height is zero — decode_image
applied to the result of encode_image returns exactly the original width,
height, and pixel sequence. -/
theorem c1_amended_round_trip (w h : Nat) (pixels : PixelList)
    (hw : w ≤ 65535) (hh : h ≤ 65535)
    (hlen : pixels.length = w * h)
    (hvals : ∀ p ∈ pixels, p.1 ≤ 255 ∧ p.2.1 ≤ 255 ∧ p.2.2 ≤ 255)
    (hsize : 100 ≤ 3 * w * h ∨ w * h = 0) :
    ∃ data, encode_image w h pixels = .ok data ∧
      decode_image data =
        .ok (w, h, pixels.map fun p => ((p.1 : Int), (p.2.1 : Int), (p.2.2 : Int))) := by
  apply round_trip_aux w h pixels (by omega) (by omega) hlen ?_ hsize
  intro p hp
  have := hvals p hp
  omega

/-- C1 witness: a concrete 34x1 image (3*34*1 = 102 ≥ 100) round-trips. -/
theorem c1_amended_round_trip_witness :
    (34 : Nat) ≤ 65535 ∧ (1 : Nat) ≤ 65535 ∧
    (List.replicate 34 ((1 : Nat), (2 : Nat), (3 : Nat))).length = 34 * 1 ∧
    (∀ p ∈ List.replicate 34 ((1 : Nat), (2 : Nat), (3 : Nat)),
      p.1 ≤ 255 ∧ p.2.1 ≤ 255 ∧ p.2.2 ≤ 255) ∧
    (100 ≤ 3 * 34 * 1 ∨ 34 * 1 = 0) ∧
    ∃ data, encode_image 34 1 (List.replicate 34 ((1 : Nat), (2 : Nat), (3 : Nat))) = .ok data ∧
      decode_image data =
        .ok (34, 1, (List.replicate 34 ((1 : Nat), (2 : Nat), (3 : Nat))).map
          fun p => ((p.1 : Int), (p.2.1 : Int), (p.2.2 : Int))) :=
  ⟨by decide, by decide, by decide, by decide, by decide,
    c1_amended_round_trip 34 1 (List.replicate 34 ((1 : Nat), (2 : Nat), (3 : Nat)))
      (by decide) (by decide) (by decide) (by decide) (by decide)⟩

/-- C2: for every width and height with 0 < 3*width*height < 100,
encode_image (given a matching pixel list) and decode_image (given any
buffer whose 32-bit header declares that width and height) raise an
uncaught ZeroDivisionError from the progress computation
(step_size = 3*width*height // 100 = 0 used as the right operand of %),
so neither returns a result. -/
theorem c2_progress_division_by_zero (w h : Nat) (pixels : PixelList) (data : List Nat)
    (hlen : pixels.length = w * h)
    (hwid : (BitArray.init data).read_bits 0 16 = w)
    (hhei : (BitArray.init data).read_bits 16 16 = h)
    (h1 : 0 < 3 * w * h) (h2 : 3 * w * h < 100) :
    encode_image w h pixels = .error PyError.zeroDivisionError ∧
      decode_image data = .error PyError.zeroDivisionError :=
  ⟨encode_image_zeroDiv w h pixels hlen h1 h2,
    decode_image_zeroDiv data w h hwid hhei h1 h2⟩

/-- C2 witness: the 1x1 image and the buffer [0,1,0,1] (header width=1,
height=1) both fail with the division by zero. -/
theorem c2_progress_division_by_zero_witness :
    (List.length [((0 : Nat), (0 : Nat), (0 : Nat))] = 1 * 1) ∧
    (BitArray.init [0, 1, 0, 1]).read_bits 0 16 = 1 ∧
    (BitArray.init [0, 1, 0, 1]).read_bits 16 16 = 1 ∧
    0 < 3 * 1 * 1 ∧ 3 * 1 * 1 < 100 ∧
    (encode_image 1 1 [(0, 0, 0)] = .error PyError.zeroDivisionError ∧
      decode_image [0, 1, 0, 1] = .error PyError.zeroDivisionError) :=
  ⟨by decide, by decide, by decide, by decide, by decide,
    c2_progress_division_by_zero 1 1 [(0, 0, 0)] [0, 1, 0, 1]
      (by decide) (by decide) (by decide) (by decide) (by decide)⟩

/-- C3 counterexample: the claim fails as stated — decoding the header-only
buffer [0,34,0,1] (width=34, height=1, no channel data) does not fail with
any bounds error: the truncated reads silently return 0 and decode_image
returns a zero-filled 34-pixel image. -/
theorem c3_counterexample_truncated_returns_image :
    decode_image [0, 34, 0, 1] =
      Except.ok (34, 1, List.replicate 34 ((0 : Int), (0 : Int), (0 : Int))) := by
  rfl

/-- C3 (amended): decode_image does not detect truncation — out-of-range
reads return 0, so a header-only buffer generally decodes to a zero-filled
image; for the specific header width=2, height=1 ([0,2,0,1]) decoding does
fail, but with the ZeroDivisionError of the progress computation
(3*2*1 // 100 = 0), not with a TruncatedBuffer error. -/
theorem c3_amended_truncation :
    decode_image [0, 2, 0, 1] = Except.error PyError.zeroDivisionError := by
  rfl

/-- C4 counterexample: the claim fails as stated — on the one-byte buffer
[0xAB], read_bits(4, 8) has bit_offset + length = 12 > 8 but raises no
bounds error; it returns the unsigned integer 10 read from the silently
truncated byte slice. -/
theorem c4_counterexample_out_of_bounds_read :
    (BitArray.init [171]).read_bits 4 8 = 10 := by
  rfl

/-- C4 (amended): read_bits performs no bounds check: even when
bit_offset + length exceeds 8 times the byte length of the buffer it returns an
unsigned integer strictly below 2^length, computed from the truncated byte
slice. -/
theorem c4_amended_read_bits_no_bounds_error (data : List Nat) (index length : Nat)
    (hoob : 8 * data.length < index + length) :
    (BitArray.init data).read_bits index length < 2 ^ length :=
  read_bits_lt (BitArray.init data) index length

/-- C4 witness: the out-of-bounds read of the counterexample is covered. -/
theorem c4_amended_read_bits_no_bounds_error_witness :
    8 * List.length [171] < 4 + 8 ∧ (BitArray.init [171]).read_bits 4 8 < 2 ^ 8 :=
  ⟨by decide, c4_amended_read_bits_no_bounds_error [171] 4 8 (by decide)⟩

/-- C5: for every byte buffer, every bit index and every positive length,
read_bits returns an unsigned integer strictly less than 2^length — it is a
total function, never raising — and when the requested range begins at or
beyond the end of the buffer (index / 8 at least the byte length of the buffer)
it returns 0, because the out-of-range byte slice is truncated to empty
before conversion. -/
theorem c5_read_bits_total (data : List Nat) (index length : Nat)
    (hpos : 0 < length) :
    (BitArray.init data).read_bits index length < 2 ^ length ∧
      (data.length ≤ index / 8 → (BitArray.init data).read_bits index length = 0) :=
  ⟨read_bits_lt (BitArray.init data) index length,
    fun h => read_bits_zero_of_ge index length h⟩

/-- C5 witness: reading 3 bits at bit index 8 of the one-byte buffer [171]
stays below 8 and returns 0. -/
theorem c5_read_bits_total_witness :
    0 < 3 ∧ ((BitArray.init [171]).read_bits 8 3 < 2 ^ 3 ∧
      (List.length [171] ≤ 8 / 8 → (BitArray.init [171]).read_bits 8 3 = 0)) :=
  ⟨by decide, c5_read_bits_total [171] 8 3 (by decide)⟩

/-- C6 counterexample: the claim fails as stated — encode_image performs no
validation: with width=2, height=3 and an empty pixel sequence (length 0 is
not 2*3), it returns an encoded buffer instead of failing with an
InvalidDimension error. -/
theorem c6_counterexample_no_validation :
    encode_image 2 3 [] = Except.ok [0, 2, 0, 3] := by
  rfl

/-- C6 (amended): encode_image raises no InvalidDimension error: with an
empty pixel sequence it succeeds for every width and height, including
width = 65536 (silently truncated to its low 16 header bits, yielding the
same bytes as width 0) and mismatched dimensions such as width=height=1
with no pixels. -/
theorem c6_amended_no_dimension_error :
    (∀ w h : Nat, ∃ out, encode_image w h [] = Except.ok out) ∧
    encode_image 65536 0 [] = Except.ok [0, 0, 0, 0] ∧
    encode_image 1 1 [] = Except.ok [0, 1, 0, 1] :=
  ⟨fun w h => ⟨_, encode_image_eq w h [] (Or.inr rfl)⟩, by rfl, by rfl⟩

/-- C7: for every predictor and sample value in [0,255] whose delta lies in
[-8,7], the encoder emits the delta code (flag 1, sign bit = delta < 0,
3-bit magnitude = delta mod 8), and decoding that code with the same
predictor (magnitude - 8 if the sign bit is set, else magnitude, added to
the predictor) reproduces exactly the original sample value. -/
theorem c7_delta_code_round_trip (p v : Nat) (hp : p ≤ 255) (hv : v ≤ 255)
    (h1 : -8 ≤ (v : Int) - (p : Int)) (h2 : (v : Int) - (p : Int) ≤ 7) :
    encChan 1 [v] p BitArray.empty 0 =
      .ok (BitArray.empty.add_bits
        (true :: decide ((v : Int) - (p : Int) < 0) ::
          encode_bits (((v : Int) - (p : Int)) % (DIFF_MOD : Int)).toNat DIFF_VAL), 1) ∧
    decChan (BitArray.init ((BitArray.empty.add_bits
        (true :: decide ((v : Int) - (p : Int) < 0) ::
          encode_bits (((v : Int) - (p : Int)) % (DIFF_MOD : Int)).toNat DIFF_VAL)).to_bytes))
        1 1 0 (p : Int) 0 =
      .ok ([(v : Int)], 5, 1) := by
  have hc : ¬((v : Int) - (p : Int) < MIN_DIFF ∨ (v : Int) - (p : Int) > MAX_DIFF) := by
    rw [MIN_DIFF_eq, MAX_DIFF_eq]
    omega
  have hsample : encBitsChan p [v] =
      true :: decide ((v : Int) - (p : Int) < 0) ::
        encode_bits (((v : Int) - (p : Int)) % (DIFF_MOD : Int)).toNat DIFF_VAL := by
    simp only [encBitsChan, encBitsSample]
    rw [if_neg hc]
    simp
  constructor
  · have henc := encChan_ok 1 (by norm_num) [v] p BitArray.empty 0
    rw [hsample] at henc
    exact henc
  · have hwfe := add_bits_wf_bits (true :: decide ((v : Int) - (p : Int) < 0) ::
        encode_bits (((v : Int) - (p : Int)) % (DIFF_MOD : Int)).toNat DIFF_VAL) wf_empty
    have hspec := to_bytes_spec hwfe.1
    have hBB := hspec.2
    rw [hwfe.2, bitsOf_empty, List.nil_append] at hBB
    obtain ⟨K, hBB2⟩ : ∃ K, bytesToBits ((BitArray.empty.add_bits
        (true :: decide ((v : Int) - (p : Int) < 0) ::
          encode_bits (((v : Int) - (p : Int)) % (DIFF_MOD : Int)).toNat DIFF_VAL)).to_bytes) =
        encBitsChan p [v] ++ List.replicate K false := ⟨_, by rw [hBB, hsample]⟩
    have hdrop : (bytesToBits (BitArray.init ((BitArray.empty.add_bits
        (true :: decide ((v : Int) - (p : Int) < 0) ::
          encode_bits (((v : Int) - (p : Int)) % (DIFF_MOD : Int)).toNat DIFF_VAL)).to_bytes)).data).drop 0 =
        encBitsChan p [v] ++ List.replicate K false := by
      show (bytesToBits ((BitArray.empty.add_bits
        (true :: decide ((v : Int) - (p : Int) < 0) ::
          encode_bits (((v : Int) - (p : Int)) % (DIFF_MOD : Int)).toNat DIFF_VAL)).to_bytes)).drop 0 = _
      rw [List.drop_zero]
      exact hBB2
    have hdec := decChan_ok (b := BitArray.init ((BitArray.empty.add_bits
        (true :: decide ((v : Int) - (p : Int) < 0) ::
          encode_bits (((v : Int) - (p : Int)) % (DIFF_MOD : Int)).toNat DIFF_VAL)).to_bytes))
      hspec.1 1 (by norm_num) [v] p 0 0 _ hdrop
      (by intro x hx; simp at hx; omega)
    have hlenS : (encBitsChan p [v]).length = 5 := by
      rw [hsample]
      simp [length_encode_bits, DIFF_VAL_eq]
    rw [hlenS] at hdec
    exact hdec

/-- C7 witness: predictor 10 and value 3 (delta -7) round-trip through the
delta code. -/
theorem c7_delta_code_round_trip_witness :
    (10 : Nat) ≤ 255 ∧ (3 : Nat) ≤ 255 ∧
    (-8 ≤ (3 : Int) - (10 : Int)) ∧ ((3 : Int) - (10 : Int) ≤ 7) ∧
    (encChan 1 [3] 10 BitArray.empty 0 =
      .ok (BitArray.empty.add_bits
        (true :: decide ((3 : Int) - (10 : Int) < 0) ::
          encode_bits (((3 : Int) - (10 : Int)) % (DIFF_MOD : Int)).toNat DIFF_VAL), 1) ∧
    decChan (BitArray.init ((BitArray.empty.add_bits
        (true :: decide ((3 : Int) - (10 : Int) < 0) ::
          encode_bits (((3 : Int) - (10 : Int)) % (DIFF_MOD : Int)).toNat DIFF_VAL)).to_bytes))
        1 1 0 ((10 : Nat) : Int) 0 =
      .ok ([((3 : Nat) : Int)], 5, 1)) :=
  ⟨by decide, by decide, by decide, by decide,
    c7_delta_code_round_trip 10 3 (by decide) (by decide) (by decide) (by decide)⟩

/-- C8: for consecutive channel values [10, 2] (delta = -8) the encoder
emits a literal code for 10 then the delta code with sign bit 1 and
magnitude 0; for [10, 18] (delta = 8 > 7) it emits a literal code for 18;
decoding each emitted code against predictor 10 reproduces 2 and 18. -/
theorem c8_delta_boundary :
    encChan 1 [10, 2] 0 BitArray.empty 0 =
      .ok (BitArray.empty.add_bits
        ((false :: encode_bits 10 8) ++ (true :: true :: encode_bits 0 3)), 2) ∧
    encChan 1 [10, 18] 0 BitArray.empty 0 =
      .ok (BitArray.empty.add_bits
        ((false :: encode_bits 10 8) ++ (false :: encode_bits 18 8)), 2) ∧
    decChan (BitArray.init
        ((BitArray.empty.add_bits (true :: true :: encode_bits 0 3)).to_bytes))
      1 1 0 (10 : Int) 0 = .ok ([2], 5, 1) ∧
    decChan (BitArray.init
        ((BitArray.empty.add_bits (false :: encode_bits 18 8)).to_bytes))
      1 1 0 (10 : Int) 0 = .ok ([18], 9, 1) :=
  ⟨by rfl, by rfl, by rfl, by rfl⟩

/-- C9: appending the bits 1,0,1,1,0,1,0,0 to a fresh BitArray and
finalizing yields exactly the byte 0b10110100 = 180; appending any 3 bits
and finalizing yields one byte with those bits as the high-order bits and
the remaining five low-order bits zero. -/
theorem c9_bit_packing :
    (BitArray.empty.add_bits
      [true, false, true, true, false, true, false, false]).to_bytes = [180] ∧
    ∀ (b1 b2 b3 : Bool), (BitArray.empty.add_bits [b1, b2, b3]).to_bytes =
      [b1.toNat * 128 + b2.toNat * 64 + b3.toNat * 32] := by
  refine ⟨by rfl, ?_⟩
  intro b1 b2 b3
  cases b1 <;> cases b2 <;> cases b3 <;> rfl

/-- C10: for every in-bounds offset and length on a byte buffer, read_bits
returns exactly the requested bit range read MSB-first across byte
boundaries, with the first read bit as the most significant bit of the
result. -/
theorem c10_read_bits_msb_first (data : List Nat) (index length : Nat)
    (h256 : ∀ x ∈ data, x < 256) (hb : index + length ≤ 8 * data.length) :
    (BitArray.init data).read_bits index length =
      bitsVal (((bytesToBits data).drop index).take length) :=
  read_bits_eq_bitsVal h256 index length hb

/-- C10 witness: on the buffer 0xAB 0xCD, read_bits(4, 8) returns the
cross-byte value 0xBC = 188. -/
theorem c10_read_bits_msb_first_witness :
    (∀ x ∈ [171, 205], x < 256) ∧ 4 + 8 ≤ 8 * List.length [171, 205] ∧
    (BitArray.init [171, 205]).read_bits 4 8 = 188 :=
  ⟨by decide, by decide,
    (c10_read_bits_msb_first [171, 205] 4 8 (by decide) (by decide)).trans (by rfl)⟩
